import Mathlib

/-!
Shallow embedding of the byte-plane-splitting streaming codec of
`src/compressor.py` and of the standalone transform pair of
`src/benchmark.py`, together with theorems settling the specification
claims about them.

Bytes are modelled as natural numbers and byte buffers as `List Nat`.
The backend entropy compressor (zstd in the source) is opaque: it enters
every definition as a function parameter, `compress : List Nat -> List Nat`
for the encoder and `dec : List Nat -> Option (List Nat)` for the decoder
(`none` models the backend raising a decoding error).
-/

namespace ZstdSplit

/-- Model of `arr[0::2]` of numpy: the bytes at even positions of a buffer. -/
def evens : List Nat → List Nat
  | [] => []
  | [a] => [a]
  | a :: _ :: rest => a :: evens rest

/-- Model of `arr[1::2]` of numpy: the bytes at odd positions of a buffer. -/
def odds : List Nat → List Nat
  | [] => []
  | [_] => []
  | _ :: b :: rest => b :: odds rest

/-- Riffle two buffers together, taking alternately from each, starting with
the first.  This is the result of the numpy slice assignments
`reconstructed[0::2] = ev; reconstructed[1::2] = od` when `ev` and `od` have
the lengths those slices require (equal, or the first one longer by one). -/
def interleave : List Nat → List Nat → List Nat
  | [], os => os
  | e :: es, [] => e :: es
  | e :: es, o :: os => e :: o :: interleave es os

/-- The forward byte-plane transform, exactly as inlined in `compress_file`
(`src/compressor.py` lines 28-43): when the length is odd the last byte is
held out (`chunk[:-1]` / `chunk[-1:]`), the even-indexed and odd-indexed
bytes of the remaining even-length buffer are concatenated, and the held-out
byte is appended. -/
def split (chunk : List Nat) : List Nat :=
  let n := chunk.length
  let data_even := if n % 2 ≠ 0 then chunk.take (n - 1) else chunk
  let last_byte := if n % 2 ≠ 0 then chunk.drop (n - 1) else []
  evens data_even ++ odds data_even ++ last_byte

/-- The four little-endian base-256 digits of a natural number: the bytes
`struct.pack('<I', n)` writes for `n < 2^32`. -/
def toLE4 (n : Nat) : List Nat :=
  [n % 256, n / 256 % 256, n / 256 / 256 % 256, n / 256 / 256 / 256 % 256]

/-- Model of `struct.pack('<II', a, b)`: the eight header bytes when both
fields fit in an unsigned 32-bit integer, `none` (a `struct.error`) otherwise. -/
def packII (a b : Nat) : Option (List Nat) :=
  if a < 4294967296 ∧ b < 4294967296 then some (toLE4 a ++ toLE4 b) else none

/-- Read a 4-byte little-endian unsigned integer, as `struct.unpack('<I', _)`
does on the four header bytes. -/
def fromLE4 (l : List Nat) : Nat :=
  l.getD 0 0 + 256 * l.getD 1 0 + 65536 * l.getD 2 0 + 16777216 * l.getD 3 0

/-- One iteration of the encode loop of `compress_file` applied to a chunk:
transform, compress with the backend, and serialize header plus payload.
`none` models `struct.pack` raising when a length does not fit in 32 bits. -/
def encodeBlock (compress : List Nat → List Nat) (chunk : List Nat) :
    Option (List Nat) :=
  let payload := compress (split chunk)
  match packII chunk.length payload.length with
  | some header => some (header ++ payload)
  | none => none

/-- The whole-file output of the encode loop over a list of chunks: the
concatenation of the encoded blocks, or `none` if any block fails to pack. -/
def encodeChunks (compress : List Nat → List Nat) :
    List (List Nat) → Option (List Nat)
  | [] => some []
  | c :: cs =>
    match encodeBlock compress c, encodeChunks compress cs with
    | some b, some rest => some (b ++ rest)
    | _, _ => none

/-- Fuel-indexed model of the chunked read loop `while True: chunk =
f_in.read(chunk_size); if not chunk: break`.  Each successful read consumes
at least one byte when `cs >= 1`, so fuel equal to the data length (as
`readChunks` supplies) always suffices and the zero-fuel case is never
reached from `readChunks`.  `f_in.read(0)` returns the empty byte string,
so `cs = 0` breaks immediately. -/
def readChunksFuel (cs : Nat) : Nat → List Nat → List (List Nat)
  | _, [] => []
  | 0, _ :: _ => []
  | fuel + 1, d :: tl =>
    if cs = 0 then []
    else (d :: tl).take cs :: readChunksFuel cs fuel ((d :: tl).drop cs)

/-- The list of chunks `compress_file` reads from an input of given bytes. -/
def readChunks (cs : Nat) (data : List Nat) : List (List Nat) :=
  readChunksFuel cs data.length data

/-- The file produced by `compress_file` (`src/compressor.py` lines 7-60) on
the given input bytes, with the backend compressor passed in as a function:
encode every chunk the read loop yields, in order.  `none` models the
function raising (a `struct.error` from the header pack) instead of
finishing. -/
def compress_file (compress : List Nat → List Nat) (chunk_size : Nat)
    (input : List Nat) : Option (List Nat) :=
  encodeChunks compress (readChunks chunk_size input)

/-- The ways the decode loop of `decompress_file` can fail: `truncatedHeader`
is the `struct.error` raised by `struct.unpack('<II', header)` when
`f_in.read(8)` returned 1 to 7 bytes; `backendError` is the backend
decompressor rejecting its input; `broadcastError` is the `ValueError`
numpy raises when a slice assignment is given a source of the wrong size. -/
inductive DecodeError
  | truncatedHeader
  | backendError
  | broadcastError
deriving DecidableEq, Repr

/-- Model of the numpy slice assignment `target_slice = src` where the
target slice has `len` cells: it succeeds when `src` has exactly `len`
elements, or broadcasts when `src` has exactly one element and the slice is
non-empty; any other size raises a `ValueError`. -/
def sliceAssign (len : Nat) (src : List Nat) : Option (List Nat) :=
  if src.length = len then some src
  else
    match src, len with
    | [x], _ + 1 => some (List.replicate len x)
    | _, _ => none

/-- Bytes of the Python slice `t[-1:]`: the last byte as a singleton, or the
empty buffer when `t` is empty (Python slicing does not raise here). -/
def lastSlice (t : List Nat) : List Nat :=
  t.drop (t.length - 1)

/-- The inverse-transform step of `decompress_file` (`src/compressor.py`
lines 85-103) applied to the decompressed buffer `t` of a block whose header
declared `original_len`: take `split_len = original_len / 2`, slice the even
and odd runs out of `t`, assign them into the even and odd positions of an
empty buffer of `2 * split_len` bytes (numpy semantics, so a wrong-sized run
raises), write the result, and append `t[-1:]` when `original_len` is odd.
The source never compares the length of `t` with `original_len`. -/
def unsplitStep (original_len : Nat) (t : List Nat) :
    Except DecodeError (List Nat) :=
  let split_len := original_len / 2
  let bytes_even := t.take split_len
  let bytes_odd := (t.drop split_len).take split_len
  match sliceAssign split_len bytes_even, sliceAssign split_len bytes_odd with
  | some ev, some od =>
    let body := interleave ev od
    if original_len % 2 ≠ 0 then Except.ok (body ++ lastSlice t)
    else Except.ok body
  | _, _ => Except.error DecodeError.broadcastError

/-- Fuel-indexed model of the decode loop of `decompress_file`: read up to 8
header bytes (`f_in.read(8)`), break cleanly on zero bytes, raise on 1 to 7
bytes, otherwise parse the two length fields, read up to `compressed_len`
payload bytes (no check that that many are present), hand them to the
backend, run the inverse-transform step, and recurse on what is left.  Every
iteration consumes at least 8 bytes of a non-empty stream, so fuel equal to
the stream length (as `decompress_file` supplies) always suffices and the
zero-fuel case is never reached from `decompress_file`. -/
def decodeLoop (dec : List Nat → Option (List Nat)) :
    Nat → List Nat → Except DecodeError (List Nat)
  | _, [] => Except.ok []
  | 0, _ :: _ => Except.error DecodeError.truncatedHeader
  | fuel + 1, a :: tl =>
    let s := a :: tl
    if s.length < 8 then Except.error DecodeError.truncatedHeader
    else
      let original_len := fromLE4 (s.take 4)
      let compressed_len := fromLE4 ((s.drop 4).take 4)
      let rest := s.drop 8
      let payload := rest.take compressed_len
      let remaining := rest.drop compressed_len
      match dec payload with
      | none => Except.error DecodeError.backendError
      | some t =>
        match unsplitStep original_len t with
        | Except.error e => Except.error e
        | Except.ok out =>
          match decodeLoop dec fuel remaining with
          | Except.error e => Except.error e
          | Except.ok tailOut => Except.ok (out ++ tailOut)

/-- The output of `decompress_file` (`src/compressor.py` lines 62-106) on a
stream of bytes, with the backend decompressor passed in as a function. -/
def decompress_file (dec : List Nat → Option (List Nat)) (s : List Nat) :
    Except DecodeError (List Nat) :=
  decodeLoop dec s.length s

/-- The standalone forward transform of the benchmark utility
(`src/benchmark.py` lines 112-120): drop the last byte when the length is
odd, then concatenate the even-indexed and odd-indexed bytes. -/
def split_bytes (data : List Nat) : List Nat :=
  let d := if data.length % 2 ≠ 0 then data.take (data.length - 1) else data
  evens d ++ odds d

/-- The standalone inverse transform of the benchmark utility
(`src/benchmark.py` lines 122-130): halve the buffer at `mid = len / 2` and
assign the two halves into the even and odd positions of an empty buffer of
the full input length, with numpy slice-assignment semantics (the even slice
of `np.empty(len)` has `(len + 1) / 2` cells, the odd slice `len / 2`). -/
def unsplit_bytes (data : List Nat) : Option (List Nat) :=
  let mid := data.length / 2
  let bytes_even := data.take mid
  let bytes_odd := data.drop mid
  match sliceAssign ((data.length + 1) / 2) bytes_even,
      sliceAssign (data.length / 2) bytes_odd with
  | some ev, some od => some (interleave ev od)
  | _, _ => none

/-- Description of the forward transform taken verbatim from the words of
the specification, for comparison with the code's `split`: with
`m = n - n % 2`, the bytes at positions `0, 2, 4, ...` of the first `m`
bytes, then the bytes at positions `1, 3, 5, ...` of those `m` bytes, then
the byte at position `n - 1` when `n` is odd. -/
def specSplit (chunk : List Nat) : List Nat :=
  let n := chunk.length
  let m := n - n % 2
  ((List.range (m / 2)).map fun k => chunk.getD (2 * k) 0)
    ++ ((List.range (m / 2)).map fun k => chunk.getD (2 * k + 1) 0)
    ++ (if n % 2 = 1 then [chunk.getD (n - 1) 0] else [])

/-- A concrete backend compressor used to exercise the decoder on truncated
streams: it appends a sentinel byte to its input. -/
def comp251 : List Nat → List Nat := fun b => b ++ [251]

/-- The matching backend decompressor for `comp251`: it strips the sentinel
when present, so it inverts `comp251` on every buffer, and returns a fixed
buffer on any input that does not end with the sentinel. -/
def dec251 : List Nat → Option (List Nat) := fun x =>
  if lastSlice x = [251] then some (x.take (x.length - 1)) else some [37, 37]

/-- The even-position run of a buffer has half its length, rounded up. -/
theorem evens_length : ∀ l : List Nat, (evens l).length = (l.length + 1) / 2
  | [] => rfl
  | [_] => by simp [evens]
  | _ :: _ :: r => by simp [evens, evens_length r]; omega

/-- The odd-position run of a buffer has half its length, rounded down. -/
theorem odds_length : ∀ l : List Nat, (odds l).length = l.length / 2
  | [] => rfl
  | [_] => by simp [odds]
  | _ :: _ :: r => by simp [odds, odds_length r]; omega

/-- Riffling the even-position and odd-position runs of a buffer back
together restores the buffer. -/
theorem interleave_evens_odds : ∀ l : List Nat, interleave (evens l) (odds l) = l
  | [] => by simp [evens, odds, interleave]
  | [a] => by simp [evens, odds, interleave]
  | a :: b :: r => by
    simp [evens, odds, interleave, interleave_evens_odds r]

/-- Central transform round-trip: the inverse-transform step of
`decompress_file`, run with the true original length, undoes the forward
transform of `compress_file` on every buffer. -/
theorem unsplit_split (buf : List Nat) :
    unsplitStep buf.length (split buf) = Except.ok buf := by
  by_cases h2 : buf.length % 2 = 0
  · have hev : (evens buf).length = buf.length / 2 := by
      rw [evens_length]; omega
    have hod : (odds buf).length = buf.length / 2 := odds_length buf
    have hsplit : split buf = evens buf ++ odds buf := by
      simp [split, h2]
    rw [hsplit]
    simp only [unsplitStep]
    rw [List.take_left' hev, List.drop_left' hev]
    have htake : (odds buf).take (buf.length / 2) = odds buf := by
      rw [← hod]; exact List.take_length _
    rw [htake]
    simp [sliceAssign, hev, hod, interleave_evens_odds, h2]
  · have h2' : buf.length % 2 = 1 := by omega
    have hpos : 1 ≤ buf.length := by omega
    have hd : (buf.take (buf.length - 1)).length = buf.length - 1 := by
      simp [List.length_take]
    have hev : (evens (buf.take (buf.length - 1))).length = buf.length / 2 := by
      rw [evens_length, hd]; omega
    have hod : (odds (buf.take (buf.length - 1))).length = buf.length / 2 := by
      rw [odds_length, hd]; omega
    have hsplit : split buf = evens (buf.take (buf.length - 1)) ++
        (odds (buf.take (buf.length - 1)) ++ buf.drop (buf.length - 1)) := by
      simp [split, h2']
    rw [hsplit]
    simp only [unsplitStep]
    rw [List.take_left' hev, List.drop_left' hev, List.take_left' hod]
    have hdrop1 : (buf.drop (buf.length - 1)).length = 1 := by
      simp [List.length_drop]; omega
    have hlast : lastSlice (evens (buf.take (buf.length - 1)) ++
        (odds (buf.take (buf.length - 1)) ++ buf.drop (buf.length - 1))) =
        buf.drop (buf.length - 1) := by
      have hcat : (evens (buf.take (buf.length - 1)) ++
          (odds (buf.take (buf.length - 1)) ++ buf.drop (buf.length - 1))).length
          = buf.length := by
        simp [hev, hod, hdrop1]; omega
      unfold lastSlice
      rw [hcat, ← List.append_assoc]
      apply List.drop_left'
      simp [hev, hod]; omega
    rw [hlast]
    simp [sliceAssign, hev, hod, h2', interleave_evens_odds,
      List.take_append_drop]

/-- Packing eight header bytes and reading them back is the identity on
values that fit in 32 bits. -/
theorem fromLE4_toLE4 (n : Nat) (h : n < 4294967296) :
    fromLE4 (toLE4 n) = n := by
  simp [fromLE4, toLE4]; omega

/-- A packed length field is four bytes long. -/
theorem toLE4_length (n : Nat) : (toLE4 n).length = 4 := rfl

/-- The fuel argument of the read loop is irrelevant once it is at least the
length of the remaining data, so the seed `readChunks` picks is safe. -/
theorem readChunksFuel_irrel (cs : Nat) (f g : Nat) (data : List Nat)
    (hf : data.length ≤ f) (hg : data.length ≤ g) :
    readChunksFuel cs f data = readChunksFuel cs g data := by
  induction f generalizing g data with
  | zero =>
    have hnil : data = [] := by
      cases data with
      | nil => rfl
      | cons d tl => simp at hf
    subst hnil
    cases g <;> simp [readChunksFuel]
  | succ f ih =>
    cases data with
    | nil => cases g <;> simp [readChunksFuel]
    | cons d tl =>
      cases g with
      | zero => simp at hg
      | succ g' =>
        simp only [readChunksFuel]
        by_cases hcs : cs = 0
        · simp [hcs]
        · simp only [if_neg hcs]
          have h1 : ((d :: tl).drop cs).length ≤ f := by
            simp only [List.length_drop, List.length_cons] at hf ⊢; omega
          have h2 : ((d :: tl).drop cs).length ≤ g' := by
            simp only [List.length_drop, List.length_cons] at hg ⊢; omega
          rw [ih g' _ h1 h2]

/-- Reading chunks from the empty input yields no chunks. -/
theorem readChunks_nil (cs : Nat) : readChunks cs [] = [] := rfl

/-- One iteration of the read loop on non-empty data with a positive chunk
size: take `cs` bytes, then loop on the rest. -/
theorem readChunks_cons (cs : Nat) (data : List Nat) (hcs : cs ≠ 0)
    (hd : data ≠ []) :
    readChunks cs data = data.take cs :: readChunks cs (data.drop cs) := by
  cases data with
  | nil => exact absurd rfl hd
  | cons d tl =>
    show readChunksFuel cs (tl.length + 1) (d :: tl) = _
    simp only [readChunksFuel, if_neg hcs]
    congr 1
    apply readChunksFuel_irrel
    · simp [List.length_drop]; omega
    · exact le_refl _

/-- The chunks of the read loop concatenate back to the input whenever the
chunk size is positive. -/
theorem readChunks_join (cs : Nat) (hcs : 1 ≤ cs) (data : List Nat) :
    (readChunks cs data).flatten = data := by
  suffices H : ∀ n (data : List Nat), data.length ≤ n →
      (readChunks cs data).flatten = data from H data.length data (le_refl _)
  intro n
  induction n with
  | zero =>
    intro data h
    cases data with
    | nil => simp [readChunks_nil]
    | cons d tl => simp at h
  | succ n ih =>
    intro data h
    cases data with
    | nil => simp [readChunks_nil]
    | cons d tl =>
      rw [readChunks_cons cs _ (by omega) (by simp)]
      simp only [List.flatten_cons]
      rw [ih _ (by simp only [List.length_drop, List.length_cons] at h ⊢; omega),
        List.take_append_drop]

/-- Every chunk the read loop yields is non-empty and no longer than the
chunk size. -/
theorem readChunks_mem_length (cs : Nat) (hcs : 1 ≤ cs) (data : List Nat)
    (c : List Nat) (hc : c ∈ readChunks cs data) :
    1 ≤ c.length ∧ c.length ≤ cs := by
  suffices H : ∀ n (data : List Nat), data.length ≤ n →
      c ∈ readChunks cs data → 1 ≤ c.length ∧ c.length ≤ cs from
    H data.length data (le_refl _) hc
  intro n
  induction n with
  | zero =>
    intro data h hmem
    cases data with
    | nil => simp [readChunks_nil] at hmem
    | cons d tl => simp at h
  | succ n ih =>
    intro data h hmem
    cases data with
    | nil => simp [readChunks_nil] at hmem
    | cons d tl =>
      rw [readChunks_cons cs _ (by omega) (by simp)] at hmem
      rcases List.mem_cons.mp hmem with heq | hmem'
      · subst heq
        constructor
        · simp [List.length_take]; omega
        · simp [List.length_take]
      · apply ih _ _ hmem'
        simp only [List.length_drop, List.length_cons] at h ⊢
        omega

/-- The fuel argument of the decode loop is irrelevant once it is at least
the length of the remaining stream, so the seed `decompress_file` picks is
safe: every iteration consumes at least eight bytes. -/
theorem decodeLoop_irrel (dec : List Nat → Option (List Nat)) (f g : Nat)
    (s : List Nat) (hf : s.length ≤ f) (hg : s.length ≤ g) :
    decodeLoop dec f s = decodeLoop dec g s := by
  induction f generalizing g s with
  | zero =>
    have hnil : s = [] := by
      cases s with
      | nil => rfl
      | cons a tl => simp at hf
    subst hnil
    cases g <;> simp [decodeLoop]
  | succ f ih =>
    cases s with
    | nil => cases g <;> simp [decodeLoop]
    | cons a tl =>
      cases g with
      | zero => simp at hg
      | succ g' =>
        simp only [decodeLoop]
        by_cases h8 : (a :: tl).length < 8
        · have h8' : tl.length + 1 < 8 := by simpa using h8
          simp [h8']
        · simp only [if_neg h8]
          have h1 : (((a :: tl).drop 8).drop
              (fromLE4 (((a :: tl).drop 4).take 4))).length ≤ f := by
            simp only [List.length_drop, List.length_cons] at hf ⊢
            omega
          have h2 : (((a :: tl).drop 8).drop
              (fromLE4 (((a :: tl).drop 4).take 4))).length ≤ g' := by
            simp only [List.length_drop, List.length_cons] at hg ⊢
            omega
          rw [ih g' _ h1 h2]

/-- Unfold one iteration of the decode loop on a stream that still holds a
full 8-byte header. -/
theorem decodeLoop_step (dec : List Nat → Option (List Nat)) (f : Nat)
    (s : List Nat) (h8 : 8 ≤ s.length) (hf : s.length ≤ f + 1) :
    decodeLoop dec (f + 1) s =
      match dec ((s.drop 8).take (fromLE4 ((s.drop 4).take 4))) with
      | none => Except.error DecodeError.backendError
      | some t =>
        match unsplitStep (fromLE4 (s.take 4)) t with
        | Except.error e => Except.error e
        | Except.ok out =>
          match decompress_file dec
              ((s.drop 8).drop (fromLE4 ((s.drop 4).take 4))) with
          | Except.error e => Except.error e
          | Except.ok tailOut => Except.ok (out ++ tailOut) := by
  cases s with
  | nil => simp at h8
  | cons a tl =>
    simp only [decodeLoop, if_neg (by omega : ¬(a :: tl).length < 8)]
    have hrem : (((a :: tl).drop 8).drop
        (fromLE4 (((a :: tl).drop 4).take 4))).length ≤ f := by
      simp only [List.length_drop, List.length_cons] at hf ⊢
      omega
    rw [show decodeLoop dec f (((a :: tl).drop 8).drop
        (fromLE4 (((a :: tl).drop 4).take 4))) = decompress_file dec
        (((a :: tl).drop 8).drop (fromLE4 (((a :: tl).drop 4).take 4))) from
      decodeLoop_irrel dec f _ _ hrem (le_refl _)]

/-- Decoding a stream that starts with a well-formed block: parse the
header, hand the payload to the backend, run the inverse transform, and
continue on the rest of the stream. -/
theorem decompress_file_block (dec : List Nat → Option (List Nat))
    (n k : Nat) (hn : n < 4294967296) (hk : k < 4294967296)
    (payload rest : List Nat) (hp : payload.length = k) :
    decompress_file dec (toLE4 n ++ toLE4 k ++ payload ++ rest) =
      match dec payload with
      | none => Except.error DecodeError.backendError
      | some t =>
        match unsplitStep n t with
        | Except.error e => Except.error e
        | Except.ok out =>
          match decompress_file dec rest with
          | Except.error e => Except.error e
          | Except.ok tailOut => Except.ok (out ++ tailOut) := by
  set s := toLE4 n ++ toLE4 k ++ payload ++ rest with hs
  have hslen : s.length = 8 + payload.length + rest.length := by
    simp [hs, toLE4]; omega
  have h8 : 8 ≤ s.length := by omega
  have htake4 : s.take 4 = toLE4 n := by
    rw [hs, List.append_assoc, List.append_assoc]
    exact List.take_left' (toLE4_length n)
  have hdrop4 : s.drop 4 = toLE4 k ++ (payload ++ rest) := by
    rw [hs, List.append_assoc, List.append_assoc]
    exact List.drop_left' (toLE4_length n)
  have hdrop4take : (s.drop 4).take 4 = toLE4 k := by
    rw [hdrop4]
    exact List.take_left' (toLE4_length k)
  have hdrop8 : s.drop 8 = payload ++ rest := by
    have hlen8 : (toLE4 n ++ toLE4 k).length = 8 := by simp [toLE4]
    rw [hs, List.append_assoc]
    exact List.drop_left' hlen8
  have hptake : (s.drop 8).take (fromLE4 ((s.drop 4).take 4)) = payload := by
    rw [hdrop8, hdrop4take, fromLE4_toLE4 k hk]
    exact List.take_left' hp
  have hpdrop : (s.drop 8).drop (fromLE4 ((s.drop 4).take 4)) = rest := by
    rw [hdrop8, hdrop4take, fromLE4_toLE4 k hk]
    exact List.drop_left' hp
  have hfuel : s.length = (s.length - 1) + 1 := by omega
  show decodeLoop dec s.length s = _
  rw [hfuel, decodeLoop_step dec _ s h8 (by omega), hptake, hpdrop, htake4,
    fromLE4_toLE4 n hn]

/-- A block encodes successfully exactly when both length fields fit in 32
bits, and then its bytes are the two packed length fields followed by the
compressed payload. -/
theorem encodeBlock_eq_some_iff (comp : List Nat → List Nat)
    (c b : List Nat) :
    encodeBlock comp c = some b ↔
      c.length < 4294967296 ∧ (comp (split c)).length < 4294967296 ∧
      b = toLE4 c.length ++ toLE4 (comp (split c)).length ++ comp (split c) := by
  simp only [encodeBlock, packII]
  by_cases h : c.length < 4294967296 ∧ (comp (split c)).length < 4294967296
  · simp only [if_pos h]
    constructor
    · intro hb
      refine ⟨h.1, h.2, ?_⟩
      rw [← Option.some_inj.mp hb, List.append_assoc]
    · intro ⟨_, _, hb⟩
      rw [hb, List.append_assoc]
  · simp only [if_neg h]
    constructor
    · intro hb; exact absurd hb (by simp)
    · intro ⟨h1, h2, _⟩; exact absurd ⟨h1, h2⟩ h

/-- A failing block makes the whole encode loop fail. -/
theorem encodeChunks_none_of_mem (comp : List Nat → List Nat)
    (chunks : List (List Nat)) (c : List Nat) (hc : c ∈ chunks)
    (hfail : encodeBlock comp c = none) :
    encodeChunks comp chunks = none := by
  induction chunks with
  | nil => simp at hc
  | cons d tl ih =>
    rcases List.mem_cons.mp hc with heq | hmem
    · subst heq
      simp [encodeChunks, hfail]
    · simp only [encodeChunks, ih hmem]
      cases encodeBlock comp d <;> rfl

/-- Successful output of the encode loop is the concatenation of the encoded
blocks, each well-formed with both length fields inside 32 bits. -/
theorem encodeChunks_eq_some (comp : List Nat → List Nat) :
    ∀ (chunks : List (List Nat)) (out : List Nat),
      encodeChunks comp chunks = some out →
      out = (chunks.map fun c =>
        toLE4 c.length ++ toLE4 (comp (split c)).length ++ comp (split c)).flatten
      ∧ ∀ c ∈ chunks, c.length < 4294967296 ∧
        (comp (split c)).length < 4294967296
  | [], out => by
    intro h
    simp only [encodeChunks] at h
    simp [← Option.some_inj.mp h]
  | c :: cs, out => by
    intro h
    simp only [encodeChunks] at h
    cases hb : encodeBlock comp c with
    | none => rw [hb] at h; exact absurd h (by simp)
    | some b =>
      cases hr : encodeChunks comp cs with
      | none => rw [hb, hr] at h; exact absurd h (by simp)
      | some r =>
        rw [hb, hr] at h
        obtain ⟨h1, h2, hbeq⟩ := (encodeBlock_eq_some_iff comp c b).mp hb
        obtain ⟨hreq, hall⟩ := encodeChunks_eq_some comp cs r hr
        refine ⟨?_, ?_⟩
        · rw [← Option.some_inj.mp h, hbeq, hreq]
          simp [List.flatten_cons]
        · intro d hd
          rcases List.mem_cons.mp hd with heq | hmem
          · subst heq; exact ⟨h1, h2⟩
          · exact hall d hmem

/-- Decoding the concatenation of successfully encoded blocks recovers the
chunks, in order, whenever the backend decompressor inverts the backend
compressor. -/
theorem decode_encodeChunks (comp : List Nat → List Nat)
    (dec : List Nat → Option (List Nat))
    (hrt : ∀ b : List Nat, dec (comp b) = some b) :
    ∀ (chunks : List (List Nat)) (out : List Nat),
      encodeChunks comp chunks = some out →
      decompress_file dec out = Except.ok chunks.flatten
  | [], out => by
    intro h
    simp only [encodeChunks] at h
    rw [← Option.some_inj.mp h]
    rfl
  | c :: cs, out => by
    intro h
    simp only [encodeChunks] at h
    cases hb : encodeBlock comp c with
    | none => rw [hb] at h; exact absurd h (by simp)
    | some b =>
      cases hr : encodeChunks comp cs with
      | none => rw [hb, hr] at h; exact absurd h (by simp)
      | some r =>
        rw [hb, hr] at h
        obtain ⟨h1, h2, hbeq⟩ := (encodeBlock_eq_some_iff comp c b).mp hb
        have htail := decode_encodeChunks comp dec hrt cs r hr
        rw [← Option.some_inj.mp h, hbeq]
        rw [decompress_file_block dec c.length (comp (split c)).length h1 h2
          (comp (split c)) r rfl]
        simp [hrt (split c), unsplit_split c, htail]

/-- The even-position run, written as an index map the way the spec words
it: element `k` is the byte at position `2 * k`. -/
theorem evens_eq_map : ∀ l : List Nat,
    evens l = (List.range ((l.length + 1) / 2)).map fun k => l.getD (2 * k) 0
  | [] => by simp [evens]
  | [a] => by simp [evens, List.range_succ]
  | a :: b :: r => by
    have hm : ((a :: b :: r).length + 1) / 2 = (r.length + 1) / 2 + 1 := by
      simp only [List.length_cons]; omega
    rw [hm, List.range_succ_eq_map]
    simp only [List.map_cons, List.map_map]
    rw [evens, evens_eq_map r]
    congr 1

/-- The odd-position run, written as an index map the way the spec words
it: element `k` is the byte at position `2 * k + 1`. -/
theorem odds_eq_map : ∀ l : List Nat,
    odds l = (List.range (l.length / 2)).map fun k => l.getD (2 * k + 1) 0
  | [] => by simp [odds]
  | [a] => by simp [odds]
  | a :: b :: r => by
    have hm : (a :: b :: r).length / 2 = r.length / 2 + 1 := by
      simp only [List.length_cons]; omega
    rw [hm, List.range_succ_eq_map]
    simp only [List.map_cons, List.map_map]
    rw [odds, odds_eq_map r]
    congr 1

/-- Reading inside the taken region of a buffer sees the original bytes. -/
theorem getD_take (l : List Nat) (i n : Nat) (h : i < n) :
    (l.take n).getD i 0 = l.getD i 0 := by
  simp [List.getD_eq_getElem?_getD, List.getElem?_take_of_lt h]

/-- Dropping all but the last byte of a non-empty buffer leaves exactly the
byte at the last position. -/
theorem drop_pred_eq_getD : ∀ l : List Nat, l ≠ [] →
    l.drop (l.length - 1) = [l.getD (l.length - 1) 0]
  | [], h => absurd rfl h
  | [a], _ => by simp
  | a :: b :: tl, _ => by
    have ih := drop_pred_eq_getD (b :: tl) (by simp)
    have hlen : (a :: b :: tl).length - 1 = ((b :: tl).length - 1) + 1 := by
      simp only [List.length_cons]; omega
    rw [hlen, List.drop_succ_cons, List.getD_cons_succ]
    exact ih

/-- The forward transform preserves the buffer length. -/
theorem split_length (chunk : List Nat) :
    (split chunk).length = chunk.length := by
  by_cases h : chunk.length % 2 = 0
  · simp [split, h, evens_length, odds_length]
    omega
  · have h1 : 1 ≤ chunk.length := by omega
    simp [split, h, evens_length, odds_length, List.length_take,
      List.length_drop]
    omega

/-- The code's forward transform agrees with the transform the spec
describes position by position. -/
theorem split_eq_specSplit (chunk : List Nat) :
    split chunk = specSplit chunk := by
  by_cases h : chunk.length % 2 = 0
  · have hm : chunk.length - chunk.length % 2 = chunk.length := by omega
    simp only [specSplit, hm, if_neg (by omega : ¬chunk.length % 2 = 1)]
    simp only [split, if_neg (by omega : ¬chunk.length % 2 ≠ 0)]
    rw [evens_eq_map, odds_eq_map]
    have he : (chunk.length + 1) / 2 = chunk.length / 2 := by omega
    rw [he]
  · have h1 : 1 ≤ chunk.length := by omega
    have hm : chunk.length - chunk.length % 2 = chunk.length - 1 := by omega
    have htl : (chunk.take (chunk.length - 1)).length = chunk.length - 1 := by
      simp [List.length_take]
    simp only [specSplit, hm, if_pos (by omega : chunk.length % 2 = 1)]
    simp only [split, if_pos (by omega : chunk.length % 2 ≠ 0)]
    rw [evens_eq_map, odds_eq_map, htl]
    have he : (chunk.length - 1 + 1) / 2 = (chunk.length - 1) / 2 := by omega
    rw [he]
    congr 1
    · congr 1
      · apply List.map_congr_left
        intro k hk
        simp only [List.mem_range] at hk
        exact getD_take chunk (2 * k) (chunk.length - 1) (by omega)
      · apply List.map_congr_left
        intro k hk
        simp only [List.mem_range] at hk
        exact getD_take chunk (2 * k + 1) (chunk.length - 1) (by omega)
    · rw [drop_pred_eq_getD chunk (by intro hnil; rw [hnil] at h1; simp at h1)]

/-- The benchmark transform pair round-trips on even-length buffers. -/
theorem unsplit_split_bytes_even (d : List Nat) (h : d.length % 2 = 0) :
    unsplit_bytes (split_bytes d) = some d := by
  have hev : (evens d).length = d.length / 2 := by rw [evens_length]; omega
  have hod : (odds d).length = d.length / 2 := odds_length d
  have hsb : split_bytes d = evens d ++ odds d := by
    simp [split_bytes, h]
  rw [hsb]
  simp only [unsplit_bytes]
  have hlen : (evens d ++ odds d).length = d.length := by
    simp only [List.length_append, hev, hod]; omega
  rw [hlen]
  have he2 : (d.length + 1) / 2 = d.length / 2 := by omega
  rw [he2, List.take_left' hev, List.drop_left' hev]
  simp [sliceAssign, hev, hod, interleave_evens_odds]

/-- The sentinel backend decompressor inverts the sentinel backend
compressor on every buffer, so the pair is a legitimate round-tripping
backend for the codec. -/
theorem dec251_comp251 (b : List Nat) : dec251 (comp251 b) = some b := by
  have hlen : (b ++ [251]).length = b.length + 1 := by simp
  have hdrop : lastSlice (b ++ [251]) = [251] := by
    simp only [lastSlice, hlen, Nat.add_sub_cancel]
    exact List.drop_left _ _
  have htake : (b ++ [251]).take ((b ++ [251]).length - 1) = b := by
    simp only [hlen, Nat.add_sub_cancel]
    exact List.take_left _ _
  simp [dec251, comp251, hdrop, htake, hlen]

/-- C1: for every input, every chunk size of at least one byte, and every
level, if the backend decompressor inverts the backend compressor at that
level, then decoding the file `compress_file` produced yields exactly the
original bytes: the chunks come back in encode order and concatenate to the
input. -/
theorem claim_c1_stream_round_trip (comp : Nat → List Nat → List Nat)
    (dec : List Nat → Option (List Nat)) (level chunk_size : Nat)
    (input out : List Nat) (hcs : 1 ≤ chunk_size)
    (hrt : ∀ b : List Nat, dec (comp level b) = some b)
    (henc : compress_file (comp level) chunk_size input = some out) :
    decompress_file dec out = Except.ok input := by
  have h := decode_encodeChunks (comp level) dec hrt
    (readChunks chunk_size input) out henc
  rwa [readChunks_join chunk_size hcs input] at h

/-- Witness for C1 at a concrete three-chunk input with the identity
backend. -/
theorem claim_c1_stream_round_trip_witness :
    (1 : Nat) ≤ 3 ∧ decompress_file some
      [3, 0, 0, 0, 3, 0, 0, 0, 0, 1, 2, 3, 0, 0, 0, 3, 0, 0, 0, 3, 4, 5,
        1, 0, 0, 0, 1, 0, 0, 0, 6] = Except.ok [0, 1, 2, 3, 4, 5, 6] :=
  ⟨by decide, claim_c1_stream_round_trip (fun _ b => b) some 0 3
    [0, 1, 2, 3, 4, 5, 6]
    [3, 0, 0, 0, 3, 0, 0, 0, 0, 1, 2, 3, 0, 0, 0, 3, 0, 0, 0, 3, 4, 5,
      1, 0, 0, 0, 1, 0, 0, 0, 6]
    (by decide) (fun b => rfl) rfl⟩

/-- C2: the byte-plane transform of `compress_file` composed with the
inverse step of `decompress_file` at `original_len = n` is the identity on
every buffer, of every length including 0 and 1; both directions are total
functions of their argument. -/
theorem claim_c2_transform_round_trip (buf : List Nat) :
    unsplitStep buf.length (split buf) = Except.ok buf :=
  unsplit_split buf

/-- C3: the forward transform emits the even-position bytes of the largest
even prefix, then the odd-position bytes, then the trailing byte when the
length is odd; it preserves length, and on the seven-byte example it yields
the planar buffer the spec names. -/
theorem claim_c3_split_matches_spec :
    (∀ chunk : List Nat, split chunk = specSplit chunk
      ∧ (split chunk).length = chunk.length)
    ∧ split [0, 1, 2, 3, 4, 5, 6] = [0, 2, 4, 1, 3, 5, 6] :=
  ⟨fun chunk => ⟨split_eq_specSplit chunk, split_length chunk⟩, rfl⟩

/-- C4 counterexample: a block whose header declares three payload bytes
while only two remain is decoded without any error: the decoder hands the
two available bytes to the backend and accepts the result, so a truncated
payload is silently accepted rather than rejected. -/
theorem claim_c4_counterexample :
    ([1, 2] : List Nat).length < 3
    ∧ decompress_file (fun _ => some [37, 37]) (toLE4 2 ++ toLE4 3 ++ [1, 2])
      = Except.ok [37, 37] :=
  ⟨by decide, rfl⟩

/-- C4 as amended: the decoder never checks how many payload bytes were
actually read; when fewer than `compressed_len` remain it passes exactly the
remaining bytes to the backend decompressor and proceeds with whatever comes
back, so detection of a truncated payload is delegated entirely to the
backend and later steps. -/
theorem claim_c4_amended_no_payload_length_check
    (dec : List Nat → Option (List Nat)) (ol cl : Nat) (payload : List Nat)
    (hol : ol < 4294967296) (hcl : cl < 4294967296)
    (hshort : payload.length < cl) :
    decompress_file dec (toLE4 ol ++ toLE4 cl ++ payload) =
      match dec payload with
      | none => Except.error DecodeError.backendError
      | some t => unsplitStep ol t := by
  set s := toLE4 ol ++ toLE4 cl ++ payload with hs
  have hslen : s.length = 8 + payload.length := by simp [hs, toLE4]; omega
  have h8 : 8 ≤ s.length := by omega
  have htake4 : s.take 4 = toLE4 ol := by
    rw [hs, List.append_assoc]
    exact List.take_left' (toLE4_length ol)
  have hdrop4 : s.drop 4 = toLE4 cl ++ payload := by
    rw [hs, List.append_assoc]
    exact List.drop_left' (toLE4_length ol)
  have hdrop4take : (s.drop 4).take 4 = toLE4 cl := by
    rw [hdrop4]
    exact List.take_left' (toLE4_length cl)
  have hdrop8 : s.drop 8 = payload := by
    have hlen8 : (toLE4 ol ++ toLE4 cl).length = 8 := by simp [toLE4]
    rw [hs]
    exact List.drop_left' hlen8
  have hptake : (s.drop 8).take (fromLE4 ((s.drop 4).take 4)) = payload := by
    rw [hdrop8, hdrop4take, fromLE4_toLE4 cl hcl]
    exact List.take_of_length_le (by omega)
  have hpdrop : (s.drop 8).drop (fromLE4 ((s.drop 4).take 4)) = [] := by
    rw [hdrop8, hdrop4take, fromLE4_toLE4 cl hcl]
    exact List.drop_eq_nil_of_le (by omega)
  have hfuel : s.length = (s.length - 1) + 1 := by omega
  show decodeLoop dec s.length s = _
  rw [hfuel, decodeLoop_step dec _ s h8 (by omega), hptake, hpdrop, htake4,
    fromLE4_toLE4 ol hol]
  cases dec payload with
  | none => rfl
  | some t =>
    cases h : unsplitStep ol t with
    | error e => simp [h]
    | ok out => simp [h, decompress_file, decodeLoop]

/-- Witness for the amended C4 at a concrete truncated block. -/
theorem claim_c4_amended_witness :
    (2 : Nat) < 4294967296 ∧ (3 : Nat) < 4294967296
    ∧ ([1, 2] : List Nat).length < 3
    ∧ decompress_file (fun _ => some [37, 37]) (toLE4 2 ++ toLE4 3 ++ [1, 2])
      = match (fun (_ : List Nat) => some [37, 37]) [1, 2] with
        | none => Except.error DecodeError.backendError
        | some t => unsplitStep 2 t :=
  ⟨by decide, by decide, by decide,
    claim_c4_amended_no_payload_length_check (fun _ => some [37, 37]) 2 3
      [1, 2] (by decide) (by decide) (by decide)⟩

/-- C5 counterexample: a block whose payload decompresses to four bytes
under a header declaring `original_len = 2` is accepted without any error:
the decoder interleaves the first two bytes and silently ignores the rest,
so a length mismatch after decompression is not detected. -/
theorem claim_c5_counterexample :
    decompress_file (fun _ => some [9, 9, 9, 9]) (toLE4 2 ++ toLE4 1 ++ [5])
      = Except.ok [9, 9]
    ∧ ([9, 9, 9, 9] : List Nat).length ≠ 2 :=
  ⟨rfl, by decide⟩

/-- C5 as amended: the decoder performs no length comparison between the
decompressed buffer and the header's `original_len` and has no length
mismatch failure at all: any decompressed buffer long enough to fill the
two byte planes is accepted, the output being built from its first
`2 * (original_len / 2)` bytes plus, when `original_len` is odd, the final
byte of the buffer; only a buffer whose plane slices have the wrong size
(and do not hit the numpy length-one broadcast case) raises, and then as a
numpy broadcast error, not a length mismatch. -/
theorem claim_c5_amended_no_length_mismatch_check (ol : Nat) (t : List Nat)
    (h : 2 * (ol / 2) ≤ t.length) :
    unsplitStep ol t = Except.ok (interleave (t.take (ol / 2))
      ((t.drop (ol / 2)).take (ol / 2))
      ++ (if ol % 2 ≠ 0 then lastSlice t else [])) := by
  simp only [unsplitStep]
  have he : (t.take (ol / 2)).length = ol / 2 := by
    simp [List.length_take]; omega
  have ho : ((t.drop (ol / 2)).take (ol / 2)).length = ol / 2 := by
    simp [List.length_take, List.length_drop]; omega
  simp only [sliceAssign, he, ho, if_pos rfl]
  by_cases hodd : ol % 2 ≠ 0 <;> simp [hodd]

/-- Witness for the amended C5 at a concrete over-long decompressed
buffer. -/
theorem claim_c5_amended_witness :
    2 * (2 / 2) ≤ ([9, 9, 9, 9] : List Nat).length
    ∧ unsplitStep 2 [9, 9, 9, 9] = Except.ok (interleave
      (([9, 9, 9, 9] : List Nat).take 1)
      ((([9, 9, 9, 9] : List Nat).drop 1).take 1)
      ++ (if 2 % 2 ≠ 0 then lastSlice [9, 9, 9, 9] else [])) :=
  ⟨by decide, claim_c5_amended_no_length_mismatch_check 2 [9, 9, 9, 9]
    (by decide)⟩

/-- C6 counterexample: truncating the last byte of a valid stream written by
`compress_file` is not always detected.  With the sentinel backend (which
round-trips, see `dec251_comp251`) the full stream decodes to the original
input, while the stream truncated by one byte decodes without any error to
different bytes: the truncation only shortened the final payload, which the
decoder hands to the backend unchecked. -/
theorem claim_c6_counterexample :
    compress_file comp251 4 [1, 2] = some [2, 0, 0, 0, 3, 0, 0, 0, 1, 2, 251]
    ∧ decompress_file dec251 [2, 0, 0, 0, 3, 0, 0, 0, 1, 2, 251]
      = Except.ok [1, 2]
    ∧ ([2, 0, 0, 0, 3, 0, 0, 0, 1, 2] : List Nat)
      = ([2, 0, 0, 0, 3, 0, 0, 0, 1, 2, 251] : List Nat).take 10
    ∧ decompress_file dec251 [2, 0, 0, 0, 3, 0, 0, 0, 1, 2]
      = Except.ok [37, 37]
    ∧ (Except.ok [37, 37] : Except DecodeError (List Nat))
      ≠ Except.ok [1, 2] :=
  ⟨rfl, rfl, rfl, rfl, by simp⟩

/-- C6 as amended: when a block header is expected, an empty stream is clean
end-of-stream termination (not an error) and a stream of 1 to 7 bytes fails
with the header truncation error, so a truncation that cuts into the final
block's header is always detected; a truncation that only shortens the
final payload is passed unchecked to the backend and can decode without
error to wrong bytes. -/
theorem claim_c6_amended_header_handling
    (dec : List Nat → Option (List Nat)) (s : List Nat) (h1 : s ≠ [])
    (h7 : s.length < 8) :
    decompress_file dec [] = Except.ok []
    ∧ decompress_file dec s = Except.error DecodeError.truncatedHeader := by
  refine ⟨rfl, ?_⟩
  cases s with
  | nil => exact absurd rfl h1
  | cons a tl =>
    show decodeLoop dec (tl.length + 1) (a :: tl) = _
    simp only [decodeLoop]
    rw [if_pos]
    simpa using h7

/-- Witness for the amended C6 at a concrete three-byte stream. -/
theorem claim_c6_amended_witness :
    ([1, 2, 3] : List Nat) ≠ [] ∧ ([1, 2, 3] : List Nat).length < 8
    ∧ (decompress_file some [] = Except.ok []
      ∧ decompress_file some [1, 2, 3]
        = Except.error DecodeError.truncatedHeader) :=
  ⟨by decide, by decide,
    claim_c6_amended_header_handling some [1, 2, 3] (by decide) (by decide)⟩

/-- C7: the file `compress_file` writes is exactly the concatenation, in
chunk order, of blocks of the form `original_len` packed as a little-endian
u32, then `compressed_len` packed as a little-endian u32, then exactly the
payload the backend produced on the transformed chunk, with `original_len`
the pre-transform chunk length and `compressed_len` the payload's true
length; both fields fit in 32 bits whenever the encode succeeds. -/
theorem claim_c7_block_serialization (comp : List Nat → List Nat)
    (chunk_size : Nat) (input out : List Nat)
    (henc : compress_file comp chunk_size input = some out) :
    out = ((readChunks chunk_size input).map fun c =>
      toLE4 c.length ++ toLE4 (comp (split c)).length ++ comp (split c)).flatten
    ∧ ∀ c ∈ readChunks chunk_size input,
        c.length < 4294967296 ∧ (comp (split c)).length < 4294967296 :=
  encodeChunks_eq_some comp (readChunks chunk_size input) out henc

/-- Witness for C7 at a concrete two-chunk input with the identity
backend. -/
theorem claim_c7_block_serialization_witness :
    compress_file (fun b => b) 4 [1, 2, 3, 4, 5]
      = some [4, 0, 0, 0, 4, 0, 0, 0, 1, 3, 2, 4, 1, 0, 0, 0, 1, 0, 0, 0, 5]
    ∧ ([4, 0, 0, 0, 4, 0, 0, 0, 1, 3, 2, 4, 1, 0, 0, 0, 1, 0, 0, 0, 5]
        : List Nat)
      = ((readChunks 4 [1, 2, 3, 4, 5]).map fun c =>
        toLE4 c.length ++ toLE4 ((fun b => b) (split c)).length
          ++ (fun b => b) (split c)).flatten :=
  ⟨rfl, (claim_c7_block_serialization (fun b => b) 4 [1, 2, 3, 4, 5]
    [4, 0, 0, 0, 4, 0, 0, 0, 1, 3, 2, 4, 1, 0, 0, 0, 1, 0, 0, 0, 5] rfl).1⟩

/-- C8: the benchmark's standalone transform pair round-trips exactly on
even-length buffers; on an odd-length buffer the forward transform drops
the final byte, the round-trip returns the buffer without its last byte,
and in particular never returns the original buffer. -/
theorem claim_c8_benchmark_transform (d : List Nat) :
    (d.length % 2 = 0 → unsplit_bytes (split_bytes d) = some d)
    ∧ (d.length % 2 = 1 →
        unsplit_bytes (split_bytes d) = some (d.take (d.length - 1))
        ∧ unsplit_bytes (split_bytes d) ≠ some d) := by
  refine ⟨unsplit_split_bytes_even d, fun h => ?_⟩
  have h1 : 1 ≤ d.length := by omega
  have htl : (d.take (d.length - 1)).length = d.length - 1 := by
    simp [List.length_take]
  have heven : (d.take (d.length - 1)).length % 2 = 0 := by rw [htl]; omega
  have h2 : (d.length - 1) % 2 = 0 := by omega
  have hsb : split_bytes d = split_bytes (d.take (d.length - 1)) := by
    simp [split_bytes, h, htl, h2]
  rw [hsb, unsplit_split_bytes_even _ heven]
  refine ⟨rfl, fun hcontra => ?_⟩
  have hlen := congrArg List.length (Option.some_inj.mp hcontra)
  rw [htl] at hlen
  omega

/-- Witness for C8 at a concrete odd-length buffer. -/
theorem claim_c8_benchmark_transform_witness :
    ([1, 2, 3] : List Nat).length % 2 = 1
    ∧ (unsplit_bytes (split_bytes [1, 2, 3]) = some [1, 2]
      ∧ unsplit_bytes (split_bytes [1, 2, 3]) ≠ some [1, 2, 3]) :=
  ⟨by decide, (claim_c8_benchmark_transform [1, 2, 3]).2 (by decide)⟩

/-- C9: the encode loop of `compress_file` stops on an empty read before
writing anything, so every chunk it encodes (whose length becomes the
block's `original_len`) has between 1 and `chunk_size` bytes, and the empty
input produces an empty output with no blocks. -/
theorem claim_c9_no_empty_blocks (comp : List Nat → List Nat)
    (chunk_size : Nat) (input : List Nat) (hcs : 1 ≤ chunk_size) :
    (∀ c ∈ readChunks chunk_size input, 1 ≤ c.length ∧ c.length ≤ chunk_size)
    ∧ compress_file comp chunk_size [] = some [] :=
  ⟨fun c hc => readChunks_mem_length chunk_size hcs input c hc, rfl⟩

/-- Witness for C9 at a concrete input. -/
theorem claim_c9_no_empty_blocks_witness :
    (1 : Nat) ≤ 2
    ∧ ((∀ c ∈ readChunks 2 [5, 6, 7], 1 ≤ c.length ∧ c.length ≤ 2)
      ∧ compress_file (fun b => b) 2 [] = some []) :=
  ⟨by decide, claim_c9_no_empty_blocks (fun b => b) 2 [5, 6, 7] (by decide)⟩

/-- C10: the header pack bounds both fields to unsigned 32-bit range: a
block whose payload length (or chunk length) reaches `2 ^ 32` makes the
pack, and with it the whole `compress_file` run, fail rather than write a
wrapped header; and whenever a block is written its serialized header
fields read back as exactly the true chunk length and the true payload
length, with the payload following byte for byte. -/
theorem claim_c10_header_u32_bounds (comp : List Nat → List Nat)
    (chunk_size : Nat) (input : List Nat) (c b : List Nat) :
    (4294967296 ≤ (comp (split c)).length ∨ 4294967296 ≤ c.length →
      encodeBlock comp c = none)
    ∧ (encodeBlock comp c = some b →
        b.take 4 = toLE4 c.length
        ∧ (b.drop 4).take 4 = toLE4 (comp (split c)).length
        ∧ b.drop 8 = comp (split c)
        ∧ fromLE4 (b.take 4) = c.length
        ∧ fromLE4 ((b.drop 4).take 4) = (comp (split c)).length)
    ∧ (1 ≤ chunk_size → c ∈ readChunks chunk_size input →
        encodeBlock comp c = none →
        compress_file comp chunk_size input = none) := by
  refine ⟨?_, ?_, ?_⟩
  · intro hbig
    simp only [encodeBlock, packII]
    rw [if_neg (by omega)]
  · intro hb
    obtain ⟨h1, h2, hbeq⟩ := (encodeBlock_eq_some_iff comp c b).mp hb
    have htake4 : b.take 4 = toLE4 c.length := by
      rw [hbeq, List.append_assoc]
      exact List.take_left' (toLE4_length _)
    have hdrop4 : b.drop 4 = toLE4 (comp (split c)).length ++ comp (split c) := by
      rw [hbeq, List.append_assoc]
      exact List.drop_left' (toLE4_length _)
    have hdrop4take : (b.drop 4).take 4 = toLE4 (comp (split c)).length := by
      rw [hdrop4]
      exact List.take_left' (toLE4_length _)
    have hdrop8 : b.drop 8 = comp (split c) := by
      have hlen8 : (toLE4 c.length ++ toLE4 (comp (split c)).length).length = 8 := by
        simp [toLE4]
      rw [hbeq]
      exact List.drop_left' hlen8
    exact ⟨htake4, hdrop4take, hdrop8,
      by rw [htake4]; exact fromLE4_toLE4 _ h1,
      by rw [hdrop4take]; exact fromLE4_toLE4 _ h2⟩
  · intro _ hmem hfail
    exact encodeChunks_none_of_mem comp _ c hmem hfail

/-- Witness for C10: a backend output of `2 ^ 32` bytes aborts the block
pack and the whole file encode, while a small block's header reads back its
true lengths. -/
theorem claim_c10_header_u32_bounds_witness :
    (encodeBlock (fun _ => List.replicate 4294967296 0) [1] = none
      ∧ compress_file (fun _ => List.replicate 4294967296 0) 1 [1] = none)
    ∧ ([2, 0, 0, 0, 2, 0, 0, 0, 1, 2] : List Nat).take 4 = toLE4 2 := by
  have hbig := claim_c10_header_u32_bounds
    (fun _ => List.replicate 4294967296 0) 1 [1] [1] []
  have hfail : encodeBlock (fun _ => List.replicate 4294967296 0) [1]
      = none := hbig.1 (Or.inl (le_of_eq (List.length_replicate 4294967296 0).symm))
  have hsmall := claim_c10_header_u32_bounds (fun b => b) 4 [1, 2] [1, 2]
    [2, 0, 0, 0, 2, 0, 0, 0, 1, 2]
  exact ⟨⟨hfail, hbig.2.2 (by decide) (by decide) hfail⟩,
    (hsmall.2.1 rfl).1⟩

end ZstdSplit
